import Mathlib

/-!
Verification development for the uhigh.net utility scripts.

The repository contains two Python source files:
  * `main.py` — the Tree Line Counter (`count_lines_in_cs_files`), which walks a
    directory tree, skipping a fixed blacklist of directory names, counts the
    lines of every `.cs` file it can open, and prints per-file reports and a
    grand summary;
  * `scripts/duperemover.py` — the Pattern-Extracting Deduplicator
    (`extract_type` / `remove_duplicates_with_count`), which extracts the
    quoted identifier following the fixed phrase
    `The type or namespace name` + quote from each input line, counts the
    occurrences of each distinct extracted token, and writes a tab-separated
    table of token and count in first-extraction order.

Text is modelled as `List Char`.  A text file that is read or written line by
line is modelled as a `List Line`, where each element stands for one
newline-terminated record; raw file contents (where the exact placement of
newline characters matters, as in line counting) are modelled as a single
`List Char` including the newline characters.
-/

namespace Uhigh

/-- A line of text (or any string of characters). -/
abbrev Line := List Char

/-- The quote character `U+0027`, written via its code point. -/
def quoteC : Char := Char.ofNat 39

/-- The tab character. -/
def tabC : Char := Char.ofNat 9

/-- The newline character. -/
def nlC : Char := Char.ofNat 10

/-! ### Pattern-Extracting Deduplicator (`scripts/duperemover.py`) -/

/-- The literal part of the regular expression
`The type or namespace name '([^']+)'` that precedes the capture group:
the fixed phrase followed by an opening quote. -/
def phrase : Line := "The type or namespace name ".data ++ [quoteC]

/-- Scan for the closing quote of the capture group `[^']+`: returns the
characters before the first quote when a quote occurs in the input,
`none` when no quote follows (an unterminated capture never matches). -/
def takeTok : Line → Option Line
  | [] => none
  | c :: rest => if c = quoteC then some [] else (takeTok rest).map (fun t => c :: t)

/-- The capture group `([^']+)'` anchored at the start of the input: at least
one non-quote character followed by a closing quote; returns the captured
characters. -/
def capture : Line → Option Line
  | [] => none
  | c :: rest => if c = quoteC then none else (takeTok rest).map (fun t => c :: t)

/-- Strip a literal sequence from the front of the input, returning the
remainder, or `none` when the input does not start with it. -/
def stripLit : Line → Line → Option Line
  | [], cs => some cs
  | _ :: _, [] => none
  | p :: ps, c :: cs => if c = p then stripLit ps cs else none

/-- Attempt to match the whole regular expression
`The type or namespace name '([^']+)'` anchored at the start of the input,
returning the capture on success. -/
def tryPattern (cs : Line) : Option Line :=
  match stripLit phrase cs with
  | some rest => capture rest
  | none => none

/-- `re.search` for the fixed pattern: try to match at each position from the
left, returning the leftmost match's capture. -/
def reSearch : Line → Option Line
  | [] => none
  | c :: rest =>
    match tryPattern (c :: rest) with
    | some tk => some tk
    | none => reSearch rest

/-- `extract_type` from `scripts/duperemover.py`: the capture of the leftmost
occurrence of `The type or namespace name '([^']+)'` in the line, `None`
(here `none`) when the line does not match. -/
def extract_type (line : Line) : Option Line := reSearch line

/-- The token list of `remove_duplicates_with_count`: one extraction attempt
per input line, keeping only the truthy results (non-`None`, non-empty) in
order.  Models `types = [extract_type(line) for line in lines]` followed by
`types = [t for t in types if t]`. -/
def typesOf (lines : List Line) : List Line :=
  ((lines.map extract_type).filterMap id).filter (fun t => !t.isEmpty)

/-- First-occurrence deduplication with an explicit set of already-seen
values, as maintained by the `seen` set in the Python loop. -/
def firstOccs : List Line → List Line → List Line
  | [], _ => []
  | t :: ts, seen =>
    if t ∈ seen then firstOccs ts seen else t :: firstOccs ts (t :: seen)

/-- The loop of `remove_duplicates_with_count` that builds `unique_types`:
walks the token list, and at the first occurrence of each token appends the
pair of the token and its count under the given counting function. -/
def buildUnique (cnt : Line → Nat) : List Line → List Line → List (Line × Nat)
  | [], _ => []
  | t :: ts, seen =>
    if t ∈ seen then buildUnique cnt ts seen
    else (t, cnt t) :: buildUnique cnt ts (t :: seen)

/-- The `unique_types` list of `remove_duplicates_with_count`: distinct tokens
in first-occurrence order, each paired with its total occurrence count in the
full token list (`Counter(types)`). -/
def unique_types (lines : List Line) : List (Line × Nat) :=
  buildUnique (fun t => (typesOf lines).count t) (typesOf lines) []

/-- Decimal rendering of a natural number, as Python string formatting
produces it. -/
def fmtNat (n : Nat) : Line := Nat.toDigits 10 n

/-- The header record written first by `remove_duplicates_with_count`. -/
def headerL : Line := "TypeOrNamespace".data ++ tabC :: "Count".data

/-- The sequence of newline-terminated records that
`remove_duplicates_with_count` writes to the output file, as a function of
the input file's (newline-stripped) lines. -/
def remove_duplicates_with_count (lines : List Line) : List Line :=
  headerL :: (unique_types lines).map (fun p => p.1 ++ tabC :: fmtNat p.2)

/-- The usage message printed by the `__main__` block on a wrong argument
count. -/
def usageMsg : Line := "Usage: python duperemover.py <input_file> <output_file>".data

/-- Observable effects of one run of the script: the lines printed to stdout,
the paths read, and the files written (path paired with the written
records). -/
structure RunTrace where
  stdout : List Line
  readsFrom : List Line
  writes : List (Line × List Line)
deriving DecidableEq

/-- The `__main__` block of `scripts/duperemover.py`.  `argv` models the full
`sys.argv` (program name followed by the positional arguments); `fs` maps an
input path to that file's newline-stripped lines.  When `len(sys.argv) != 3`
the script only prints the usage message; otherwise it reads the input file
and writes the deduplicated table to the output file. -/
def duperemover_main (argv : List Line) (fs : Line → List Line) : RunTrace :=
  if argv.length ≠ 3 then
    { stdout := [usageMsg], readsFrom := [], writes := [] }
  else
    { stdout := []
      readsFrom := [argv.getD 1 []]
      writes := [(argv.getD 2 [], remove_duplicates_with_count (fs (argv.getD 1 [])))] }

/-! ### Tree Line Counter (`main.py`) -/

/-- Line count produced by iterating a Python text file (`sum(1 for _ in f)`):
the number of chunks the raw contents split into, where every newline ends a
chunk and a trailing chunk without a newline still counts. -/
def iterLineCount : Line → Nat
  | [] => 0
  | [_] => 1
  | c :: c2 :: cs => (if c = nlC then 1 else 0) + iterLineCount (c2 :: cs)

/-- Splitting raw text into lines with the terminators removed, in the sense
of `str.splitlines` restricted to the newline character. -/
def splitLinesPy : Line → List Line
  | [] => []
  | c :: cs =>
    if c = nlC then [] :: splitLinesPy cs
    else
      match splitLinesPy cs with
      | [] => [[c]]
      | l :: ls => (c :: l) :: ls

/-- A directory entry for a file: its name, and either its raw contents
(newlines included) or, for a file that cannot be opened or read, the message
of the exception raised on the attempt. -/
structure FileE where
  name : Line
  content : Except Line Line

/-- A directory tree: a directory's name, its immediate subdirectories and
its files, in the order the traversal primitive lists them. -/
inductive DirTree where
  | node (dname : Line) (subdirs : List DirTree) (files : List FileE)

/-- The name of a directory. -/
def DirTree.dname : DirTree → Line
  | .node n _ _ => n

/-- The fixed list of directory names that `count_lines_in_cs_files` never
descends into. -/
def blacklist : List Line :=
  [".git".data, "bin".data, "obj".data, "packages".data, "node_modules".data]

/-- The fixed file extension selecting the files to count. -/
def csExt : Line := ".cs".data

/-- `os.path.join` on POSIX: parent path, slash, entry name. -/
def joinPath (a b : Line) : Line := a ++ Char.ofNat 47 :: b

/-- The per-file report line `<path>: <count> lines`. -/
def reportLine (path : Line) (n : Nat) : Line :=
  path ++ ": ".data ++ fmtNat n ++ " lines".data

/-- The error line `Error reading <path>: <error message>` printed when a
file cannot be opened or read. -/
def errLine (path : Line) (e : Line) : Line :=
  "Error reading ".data ++ path ++ ": ".data ++ e

/-- Handle one directory entry of the inner file loop: for a `.cs` file,
either report its line count (contributing that count and one file to the
totals) or, when reading fails, print the error line and contribute nothing;
other files are ignored.  Returns the printed lines, the line-count
contribution and the file-count contribution. -/
def processFile (dir : Line) (fe : FileE) : List Line × Nat × Nat :=
  if csExt.isSuffixOf fe.name then
    match fe.content with
    | .ok content =>
        ([reportLine (joinPath dir fe.name) (iterLineCount content)],
         (iterLineCount content, 1))
    | .error e => ([errLine (joinPath dir fe.name) e], (0, 0))
  else ([], (0, 0))

/-- The inner file loop over one directory's file list. -/
def processFiles (dir : Line) : List FileE → List Line × Nat × Nat
  | [] => ([], (0, 0))
  | fe :: fs =>
    let r := processFile dir fe
    let rs := processFiles dir fs
    (r.1 ++ rs.1, (r.2.1 + rs.2.1, r.2.2 + rs.2.2))

/-- Accumulated observable state of the walk: printed lines and the three
running totals of `count_lines_in_cs_files`. -/
structure Totals where
  out : List Line
  tlines : Nat
  tfiles : Nat
  tdirs : Nat

mutual

/-- One iteration of the `os.walk` loop at a visited directory: prune the
blacklisted subdirectories, add the number of remaining subdirectories to the
directory total, process the files, then descend into the remaining
subdirectories in order (top-down traversal). -/
def walkDir (path : Line) : DirTree → Totals
  | .node _ subdirs files =>
    let keptCount := (subdirs.filter (fun d => decide (d.dname ∉ blacklist))).length
    let pf := processFiles path files
    let sub := walkList path subdirs
    { out := pf.1 ++ sub.out
      tlines := pf.2.1 + sub.tlines
      tfiles := pf.2.2 + sub.tfiles
      tdirs := keptCount + sub.tdirs }

/-- Walk a list of sibling subdirectories in order, skipping the blacklisted
ones entirely (they are neither entered nor counted). -/
def walkList (path : Line) : List DirTree → Totals
  | [] => { out := [], tlines := 0, tfiles := 0, tdirs := 0 }
  | d :: ds =>
    let r :=
      if d.dname ∈ blacklist then ({ out := [], tlines := 0, tfiles := 0, tdirs := 0 } : Totals)
      else walkDir (joinPath path d.dname) d
    let rs := walkList path ds
    { out := r.out ++ rs.out
      tlines := r.tlines + rs.tlines
      tfiles := r.tfiles + rs.tfiles
      tdirs := r.tdirs + rs.tdirs }

end

/-- `count_lines_in_cs_files` from `main.py`, applied to the tree rooted at
the current working directory (which `os.walk` names `.`): the full sequence
of lines printed to stdout, the summary included.  The leading empty line
models the newline at the front of the summary format string. -/
def count_lines_in_cs_files (t : DirTree) : List Line :=
  let r := walkDir ".".data t
  r.out ++
    [[],
     "Total: ".data ++ fmtNat r.tlines ++ " lines in ".data ++ fmtNat r.tfiles ++ " .cs files".data,
     "Directories scanned: ".data ++ fmtNat r.tdirs]

/-- The number of immediate subdirectories of a directory that survive the
blacklist filter. -/
def keptChildren : DirTree → Nat
  | .node _ subdirs _ =>
    (subdirs.filter (fun d => decide (d.dname ∉ blacklist))).length

mutual

/-- The directories the traversal actually visits, in visiting order: the
root, then recursively every non-blacklisted descendant. -/
def visitedDirs : DirTree → List DirTree
  | .node n sd f => .node n sd f :: visitedList sd

/-- The visited directories contributed by a list of sibling subdirectories. -/
def visitedList : List DirTree → List DirTree
  | [] => []
  | d :: ds => (if d.dname ∈ blacklist then [] else visitedDirs d) ++ visitedList ds

end

/-- Substring test: does the second list contain the first as a contiguous
run? -/
def hasSub (needle : Line) : Line → Bool
  | [] => needle.isEmpty
  | c :: rest => needle.isPrefixOf (c :: rest) || hasSub needle rest

/-! ### Generic Line Deduplicator (modelled from the spec) -/

/-- Modelled from the spec: the Generic Line Deduplicator of section 4.2 is
described in the specification but its source file is not under `src/`.  Per
the spec it computes, from the input file's newline-stripped lines, one row
per distinct line in first-occurrence order, paired with that line's
occurrence count across the whole file. -/
def genericRows (lines : List Line) : List (Line × Nat) :=
  (firstOccs lines []).map (fun l => (l, lines.count l))

/-- Modelled from the spec: the records the Generic Line Deduplicator writes,
`<line text> : count <occurrence count>`, one per distinct input line in
first-occurrence order. -/
def generic_dedup (lines : List Line) : List Line :=
  (genericRows lines).map (fun p => p.1 ++ " : count ".data ++ fmtNat p.2)

/-! ### Lemmas about the pattern matcher -/

theorem takeTok_some_spec (cs : Line) : ∀ tk : Line, takeTok cs = some tk →
    (∀ c ∈ tk, c ≠ quoteC) ∧ ∃ post, cs = tk ++ quoteC :: post := by
  induction cs with
  | nil => intro tk h; simp [takeTok] at h
  | cons c rest ih =>
    intro tk h
    rw [takeTok] at h
    by_cases hc : c = quoteC
    · rw [if_pos hc] at h
      injection h with h
      subst h
      exact ⟨by simp, rest, by rw [hc]; rfl⟩
    · rw [if_neg hc] at h
      rcases Option.map_eq_some'.mp h with ⟨tk2, htk2, rfl⟩
      rcases ih tk2 htk2 with ⟨hq, post, rfl⟩
      refine ⟨?_, post, rfl⟩
      intro x hx
      rcases List.mem_cons.mp hx with rfl | hx
      · exact hc
      · exact hq x hx

theorem takeTok_append (tk post : Line) (h : ∀ c ∈ tk, c ≠ quoteC) :
    takeTok (tk ++ quoteC :: post) = some tk := by
  induction tk with
  | nil => simp [takeTok]
  | cons c ts ih =>
    have hc : c ≠ quoteC := h c (List.mem_cons_self c ts)
    have ih2 := ih (fun x hx => h x (List.mem_cons_of_mem c hx))
    simp [takeTok, hc, ih2]

theorem capture_some_spec (cs tk : Line) (h : capture cs = some tk) :
    tk ≠ [] ∧ (∀ c ∈ tk, c ≠ quoteC) ∧ ∃ post, cs = tk ++ quoteC :: post := by
  match cs with
  | [] => simp [capture] at h
  | c :: rest =>
    rw [capture] at h
    by_cases hc : c = quoteC
    · rw [if_pos hc] at h; exact absurd h (by simp)
    · rw [if_neg hc] at h
      rcases Option.map_eq_some'.mp h with ⟨tk2, htk2, rfl⟩
      rcases takeTok_some_spec rest tk2 htk2 with ⟨hq, post, rfl⟩
      refine ⟨by simp, ?_, post, rfl⟩
      intro x hx
      rcases List.mem_cons.mp hx with rfl | hx
      · exact hc
      · exact hq x hx

theorem capture_append (tk post : Line) (hne : tk ≠ []) (hq : ∀ c ∈ tk, c ≠ quoteC) :
    capture (tk ++ quoteC :: post) = some tk := by
  match tk with
  | [] => exact absurd rfl hne
  | c :: ts =>
    have hc : c ≠ quoteC := hq c (List.mem_cons_self c ts)
    have ht : takeTok (ts ++ quoteC :: post) = some ts :=
      takeTok_append ts post (fun x hx => hq x (List.mem_cons_of_mem c hx))
    simp [capture, hc, ht]

theorem capture_eq_some_iff (cs tk : Line) : capture cs = some tk ↔
    tk ≠ [] ∧ (∀ c ∈ tk, c ≠ quoteC) ∧ ∃ post, cs = tk ++ quoteC :: post := by
  constructor
  · exact capture_some_spec cs tk
  · rintro ⟨hne, hq, post, rfl⟩
    exact capture_append tk post hne hq

theorem stripLit_eq_some (p : Line) : ∀ cs rest : Line,
    stripLit p cs = some rest ↔ cs = p ++ rest := by
  induction p with
  | nil =>
    intro cs rest
    simp [stripLit, eq_comm]
  | cons x ps ih =>
    intro cs rest
    match cs with
    | [] => simp [stripLit]
    | c :: cs2 =>
      rw [stripLit]
      by_cases hc : c = x
      · subst hc
        rw [if_pos rfl]
        simp [ih cs2 rest]
      · rw [if_neg hc]
        simp
        intro h
        exact absurd h hc

theorem tryPattern_eq_some_iff (cs tk : Line) : tryPattern cs = some tk ↔
    tk ≠ [] ∧ (∀ c ∈ tk, c ≠ quoteC) ∧ ∃ post, cs = phrase ++ tk ++ quoteC :: post := by
  rw [tryPattern]
  cases heq : stripLit phrase cs with
  | none =>
    simp only [iff_false_intro]
    constructor
    · intro h; exact absurd h (by simp)
    · rintro ⟨hne, hq, post, rfl⟩
      have : stripLit phrase (phrase ++ tk ++ quoteC :: post) = some (tk ++ quoteC :: post) :=
        (stripLit_eq_some phrase _ _).mpr (by simp)
      rw [heq] at this
      exact absurd this (by simp)
  | some rest =>
    have hcs : cs = phrase ++ rest := (stripLit_eq_some phrase cs rest).mp heq
    subst hcs
    rw [capture_eq_some_iff]
    constructor
    · rintro ⟨hne, hq, post, rfl⟩
      exact ⟨hne, hq, post, by simp⟩
    · rintro ⟨hne, hq, post, hpost⟩
      refine ⟨hne, hq, post, ?_⟩
      have h2 : phrase ++ rest = phrase ++ (tk ++ quoteC :: post) := by
        rw [hpost, List.append_assoc]
      exact List.append_cancel_left h2

theorem tryPattern_nil : tryPattern [] = none := by decide

theorem reSearch_eq_none_iff (cs : Line) :
    reSearch cs = none ↔ ∀ n, tryPattern (cs.drop n) = none := by
  induction cs with
  | nil =>
    constructor
    · intro _ n
      rw [List.drop_nil]
      exact tryPattern_nil
    · intro _
      rfl
  | cons c rest ih =>
    rw [reSearch]
    cases heq : tryPattern (c :: rest) with
    | some tk =>
      simp only []
      constructor
      · intro h; exact absurd h (by simp)
      · intro h
        have := h 0
        rw [List.drop_zero] at this
        rw [heq] at this
        exact absurd this (by simp)
    | none =>
      simp only []
      rw [ih]
      constructor
      · intro h n
        match n with
        | 0 => rw [List.drop_zero]; exact heq
        | Nat.succ k => rw [List.drop_succ_cons]; exact h k
      · intro h n
        have := h (n + 1)
        rwa [List.drop_succ_cons] at this

theorem reSearch_eq_some_iff (cs tk : Line) :
    reSearch cs = some tk ↔
      ∃ n, tryPattern (cs.drop n) = some tk ∧ ∀ m, m < n → tryPattern (cs.drop m) = none := by
  induction cs with
  | nil =>
    constructor
    · intro h
      exact absurd h (by simp [reSearch])
    · rintro ⟨n, hn, _⟩
      rw [List.drop_nil, tryPattern_nil] at hn
      exact absurd hn (by simp)
  | cons c rest ih =>
    rw [reSearch]
    cases heq : tryPattern (c :: rest) with
    | some tk0 =>
      simp only [Option.some_inj]
      constructor
      · rintro rfl
        exact ⟨0, by rw [List.drop_zero]; exact heq, fun m hm => absurd hm (Nat.not_lt_zero m)⟩
      · rintro ⟨n, hn, hm⟩
        match n with
        | 0 =>
          rw [List.drop_zero, heq] at hn
          exact Option.some_inj.mp hn
        | Nat.succ k =>
          have := hm 0 (Nat.succ_pos k)
          rw [List.drop_zero, heq] at this
          exact absurd this (by simp)
    | none =>
      simp only []
      rw [ih]
      constructor
      · rintro ⟨n, hn, hm⟩
        refine ⟨n + 1, by rwa [List.drop_succ_cons], fun m hlt => ?_⟩
        match m with
        | 0 => rw [List.drop_zero]; exact heq
        | Nat.succ k => rw [List.drop_succ_cons]; exact hm k (Nat.lt_of_succ_lt_succ hlt)
      · rintro ⟨n, hn, hm⟩
        match n with
        | 0 =>
          rw [List.drop_zero, heq] at hn
          exact absurd hn (by simp)
        | Nat.succ k =>
          rw [List.drop_succ_cons] at hn
          refine ⟨k, hn, fun m hlt => ?_⟩
          have := hm (m + 1) (Nat.succ_lt_succ hlt)
          rwa [List.drop_succ_cons] at this

theorem extract_type_some_ne_nil (line tk : Line) (h : extract_type line = some tk) :
    tk ≠ [] := by
  rw [extract_type, reSearch_eq_some_iff] at h
  rcases h with ⟨n, hn, _⟩
  exact ((tryPattern_eq_some_iff _ tk).mp hn).1

/-! ### Lemmas about first-occurrence deduplication and counting -/

/-- First-occurrence deduplication stated the way the spec phrases it: walk
the values from the left and append each one to the result the first time it
is seen.  Used as the specification-side formulation compared against the
seen-set loop of the code. -/
def dedupSpec (ts : List Line) : List Line :=
  ts.foldl (fun acc t => if t ∈ acc then acc else acc ++ [t]) []

theorem firstOccs_congr (ts : List Line) : ∀ seen seen2 : List Line,
    (∀ x, x ∈ seen ↔ x ∈ seen2) → firstOccs ts seen = firstOccs ts seen2 := by
  induction ts with
  | nil => intro seen seen2 _; rfl
  | cons t ts ih =>
    intro seen seen2 h
    rw [firstOccs, firstOccs]
    by_cases ht : t ∈ seen
    · rw [if_pos ht, if_pos ((h t).mp ht)]
      exact ih seen seen2 h
    · rw [if_neg ht, if_neg (fun hc => ht ((h t).mpr hc))]
      have h2 : ∀ x, x ∈ t :: seen ↔ x ∈ t :: seen2 := by
        intro x
        simp [h x]
      rw [ih (t :: seen) (t :: seen2) h2]

theorem mem_firstOccs (ts : List Line) : ∀ (seen : List Line) (x : Line),
    x ∈ firstOccs ts seen ↔ x ∈ ts ∧ x ∉ seen := by
  induction ts with
  | nil => intro seen x; simp [firstOccs]
  | cons t ts ih =>
    intro seen x
    rw [firstOccs]
    by_cases ht : t ∈ seen
    · rw [if_pos ht, ih]
      constructor
      · rintro ⟨hx, hns⟩
        exact ⟨List.mem_cons_of_mem t hx, hns⟩
      · rintro ⟨hx, hns⟩
        rcases List.mem_cons.mp hx with rfl | hx
        · exact absurd ht hns
        · exact ⟨hx, hns⟩
    · rw [if_neg ht]
      constructor
      · intro hmem
        rcases List.mem_cons.mp hmem with rfl | hmem
        · exact ⟨List.mem_cons_self x ts, ht⟩
        · rcases (ih (t :: seen) x).mp hmem with ⟨hx, hns⟩
          exact ⟨List.mem_cons_of_mem t hx, fun hc => hns (List.mem_cons_of_mem t hc)⟩
      · rintro ⟨hx, hns⟩
        by_cases hxt : x = t
        · subst hxt
          exact List.mem_cons_self x _
        · rcases List.mem_cons.mp hx with rfl | hx
          · exact absurd rfl hxt
          · refine List.mem_cons_of_mem t ((ih (t :: seen) x).mpr ⟨hx, ?_⟩)
            intro hc
            rcases List.mem_cons.mp hc with h1 | h1
            · exact hxt h1
            · exact hns h1

theorem firstOccs_nodup (ts : List Line) : ∀ seen : List Line,
    (firstOccs ts seen).Nodup := by
  induction ts with
  | nil => intro seen; exact List.nodup_nil
  | cons t ts ih =>
    intro seen
    rw [firstOccs]
    by_cases ht : t ∈ seen
    · rw [if_pos ht]; exact ih seen
    · rw [if_neg ht]
      refine List.nodup_cons.mpr ⟨?_, ih (t :: seen)⟩
      intro hc
      exact ((mem_firstOccs ts (t :: seen) t).mp hc).2 (List.mem_cons_self t seen)

theorem buildUnique_eq_map (cnt : Line → Nat) (ts : List Line) : ∀ seen : List Line,
    buildUnique cnt ts seen = (firstOccs ts seen).map (fun t => (t, cnt t)) := by
  induction ts with
  | nil => intro seen; rfl
  | cons t ts ih =>
    intro seen
    rw [buildUnique, firstOccs]
    by_cases ht : t ∈ seen
    · rw [if_pos ht, if_pos ht, ih]
    · rw [if_neg ht, if_neg ht, List.map_cons, ih]

theorem foldl_dedup_eq_firstOccs (ts : List Line) : ∀ acc : List Line,
    ts.foldl (fun acc t => if t ∈ acc then acc else acc ++ [t]) acc
      = acc ++ firstOccs ts acc := by
  induction ts with
  | nil => intro acc; simp [firstOccs]
  | cons t ts ih =>
    intro acc
    rw [List.foldl_cons, firstOccs]
    by_cases ht : t ∈ acc
    · rw [if_pos ht, if_pos ht, ih]
    · rw [if_neg ht, if_neg ht, ih]
      have hmem : ∀ x, x ∈ acc ++ [t] ↔ x ∈ t :: acc := by
        intro x
        simp [or_comm]
      rw [firstOccs_congr ts (acc ++ [t]) (t :: acc) hmem, List.append_assoc]
      rfl

theorem firstOccs_eq_dedupSpec (ts : List Line) : firstOccs ts [] = dedupSpec ts := by
  rw [dedupSpec, foldl_dedup_eq_firstOccs, List.nil_append]

theorem count_filter_split (t : Line) (seen : List Line) (h : t ∉ seen) :
    ∀ l : List Line,
      (l.filter (fun x => decide (x ∉ seen))).length
        = l.count t + (l.filter (fun x => decide (x ∉ t :: seen))).length := by
  intro l
  induction l with
  | nil => simp
  | cons x l ih =>
    rw [List.filter_cons, List.filter_cons, List.count_cons]
    by_cases hxt : x = t
    · subst hxt
      rw [if_pos (show (decide (x ∉ seen)) = true by simpa using h)]
      rw [if_neg (show ¬((decide (x ∉ x :: seen)) = true) by simp)]
      rw [List.length_cons, ih]
      simp only [beq_self_eq_true, if_true]
      omega
    · have hbeq1 : (x == t) = false := beq_false_of_ne hxt
      have hbeq2 : (t == x) = false := beq_false_of_ne (fun hc => hxt hc.symm)
      by_cases hxs : x ∈ seen
      · rw [if_neg (show ¬((decide (x ∉ seen)) = true) by simpa using hxs)]
        rw [if_neg (show ¬((decide (x ∉ t :: seen)) = true) by
          simp [List.mem_cons, hxs])]
        rw [ih]
        simp [hbeq1, hbeq2]
      · rw [if_pos (show (decide (x ∉ seen)) = true by simpa using hxs)]
        rw [if_pos (show (decide (x ∉ t :: seen)) = true by
          simp [List.mem_cons, hxs, hxt])]
        rw [List.length_cons, List.length_cons, ih]
        simp [hbeq1, hbeq2]
        omega

theorem sum_count_firstOccs (ts : List Line) : ∀ seen : List Line,
    ((firstOccs ts seen).map (fun t => ts.count t)).sum
      = (ts.filter (fun x => decide (x ∉ seen))).length := by
  induction ts with
  | nil => intro seen; simp [firstOccs]
  | cons t ts ih =>
    intro seen
    rw [firstOccs, List.filter_cons]
    by_cases ht : t ∈ seen
    · rw [if_pos ht, if_neg (by simpa using ht)]
      have hcong : ((firstOccs ts seen).map (fun x => (t :: ts).count x))
          = ((firstOccs ts seen).map (fun x => ts.count x)) := by
        apply List.map_congr_left
        intro x hx
        have hxs : x ∉ seen := ((mem_firstOccs ts seen x).mp hx).2
        have hxt : x ≠ t := fun hc => hxs (hc ▸ ht)
        rw [List.count_cons, beq_false_of_ne (Ne.symm hxt)]
        simp
      rw [hcong, ih seen]
    · rw [if_neg ht, if_pos (by simpa using ht), List.map_cons, List.sum_cons]
      have hcong : ((firstOccs ts (t :: seen)).map (fun x => (t :: ts).count x))
          = ((firstOccs ts (t :: seen)).map (fun x => ts.count x)) := by
        apply List.map_congr_left
        intro x hx
        have hxs : x ∉ t :: seen := ((mem_firstOccs ts (t :: seen) x).mp hx).2
        have hxt : x ≠ t := fun hc => hxs (hc ▸ List.mem_cons_self t seen)
        rw [List.count_cons, beq_false_of_ne (Ne.symm hxt)]
        simp
      rw [hcong, ih (t :: seen), List.count_cons, List.length_cons,
        count_filter_split t seen ht ts]
      simp only [beq_self_eq_true, if_true]
      omega

theorem sum_count_distinct (ts : List Line) :
    ((firstOccs ts []).map (fun t => ts.count t)).sum = ts.length := by
  have h := sum_count_firstOccs ts []
  simpa using h

/-! ### Lemmas about the token list -/

theorem typesOf_eq_filterMap (lines : List Line) :
    typesOf lines = lines.filterMap extract_type := by
  rw [typesOf]
  have h1 : (lines.map extract_type).filterMap id = lines.filterMap extract_type := by
    rw [List.filterMap_map]
    rfl
  rw [h1]
  apply List.filter_eq_self.mpr
  intro tk htk
  rcases List.mem_filterMap.mp htk with ⟨l, _, hl⟩
  have := extract_type_some_ne_nil l tk hl
  simpa [List.isEmpty_iff] using this

theorem length_filterMap_extract (lines : List Line) :
    (lines.filterMap extract_type).length
      = (lines.filter (fun l => (extract_type l).isSome)).length := by
  induction lines with
  | nil => rfl
  | cons l ls ih =>
    rw [List.filterMap_cons, List.filter_cons]
    cases h : extract_type l with
    | none => simpa [h] using ih
    | some tk => simpa [h] using ih

theorem typesOf_cons_none (line : Line) (h : extract_type line = none) :
    ∀ pre suf : List Line, typesOf (pre ++ line :: suf) = typesOf (pre ++ suf) := by
  intro pre suf
  rw [typesOf_eq_filterMap, typesOf_eq_filterMap, List.filterMap_append,
    List.filterMap_append, List.filterMap_cons, h]

/-! ### Lemmas about line counting -/

theorem splitLinesPy_eq_nil_iff (cs : Line) : splitLinesPy cs = [] ↔ cs = [] := by
  cases cs with
  | nil => simp [splitLinesPy]
  | cons c cs =>
    rw [splitLinesPy]
    by_cases hc : c = nlC
    · simp [hc]
    · rw [if_neg hc]
      cases h : splitLinesPy cs with
      | nil => simp
      | cons l ls => simp

theorem length_splitLinesPy (cs : Line) : (splitLinesPy cs).length = iterLineCount cs := by
  induction cs with
  | nil => rfl
  | cons c cs ih =>
    cases cs with
    | nil =>
      by_cases hc : c = nlC
      · simp [splitLinesPy, iterLineCount, hc]
      · simp [splitLinesPy, iterLineCount, hc]
    | cons c2 cs2 =>
      rw [splitLinesPy, iterLineCount]
      by_cases hc : c = nlC
      · rw [if_pos hc, if_pos hc, List.length_cons, ih]
        omega
      · rw [if_neg hc, if_neg hc]
        cases h : splitLinesPy (c2 :: cs2) with
        | nil => exact absurd ((splitLinesPy_eq_nil_iff (c2 :: cs2)).mp h) (by simp)
        | cons l ls =>
          rw [← ih, h]
          simp

theorem iterLineCount_eq_count_add (cs : Line) :
    iterLineCount cs
      = cs.count nlC + (if cs = [] ∨ cs.getLast? = some nlC then 0 else 1) := by
  induction cs with
  | nil => rfl
  | cons c cs ih =>
    cases cs with
    | nil =>
      by_cases hc : c = nlC
      · subst hc
        simp [iterLineCount]
      · have hbeq : (c == nlC) = false := beq_false_of_ne hc
        simp [iterLineCount, List.count_cons, hbeq, hc]
    | cons c2 cs2 =>
      rw [iterLineCount, List.count_cons, ih]
      have hcond : ((c :: c2 :: cs2 : Line) = [] ∨ (c :: c2 :: cs2 : Line).getLast? = some nlC)
          ↔ ((c2 :: cs2 : Line) = [] ∨ (c2 :: cs2 : Line).getLast? = some nlC) := by
        simp [List.getLast?_cons_cons]
      by_cases hcd : ((c2 :: cs2 : Line) = [] ∨ (c2 :: cs2 : Line).getLast? = some nlC)
      · rw [if_pos hcd, if_pos (hcond.mpr hcd)]
        by_cases hc : c = nlC
        · rw [if_pos hc, if_pos (beq_iff_eq.mpr hc)]
          omega
        · rw [if_neg hc, if_neg (fun hb => hc (beq_iff_eq.mp hb))]
          omega
      · rw [if_neg hcd, if_neg (fun hb => hcd (hcond.mp hb))]
        by_cases hc : c = nlC
        · rw [if_pos hc, if_pos (beq_iff_eq.mpr hc)]
          omega
        · rw [if_neg hc, if_neg (fun hb => hc (beq_iff_eq.mp hb))]
          omega

theorem iterLineCount_eq_count_iff (cs : Line) :
    iterLineCount cs = cs.count nlC ↔ (cs = [] ∨ cs.getLast? = some nlC) := by
  rw [iterLineCount_eq_count_add cs]
  by_cases h : cs = [] ∨ cs.getLast? = some nlC
  · simp [h]
  · simp [h]

/-! ### Lemmas about the directory walk -/

theorem processFile_error (dir e : Line) (fe : FileE)
    (h1 : csExt.isSuffixOf fe.name = true) (h2 : fe.content = .error e) :
    processFile dir fe = ([errLine (joinPath dir fe.name) e], (0, 0)) := by
  simp [processFile, h1, h2]

theorem processFile_ok (dir content : Line) (fe : FileE)
    (h1 : csExt.isSuffixOf fe.name = true) (h2 : fe.content = .ok content) :
    processFile dir fe
      = ([reportLine (joinPath dir fe.name) (iterLineCount content)],
         (iterLineCount content, 1)) := by
  simp [processFile, h1, h2]

theorem processFiles_append (dir : Line) (fs gs : List FileE) :
    processFiles dir (fs ++ gs)
      = ((processFiles dir fs).1 ++ (processFiles dir gs).1,
         ((processFiles dir fs).2.1 + (processFiles dir gs).2.1,
          (processFiles dir fs).2.2 + (processFiles dir gs).2.2)) := by
  induction fs with
  | nil => simp [processFiles]
  | cons fe fs ih =>
    rw [List.cons_append, processFiles, processFiles, ih]
    simp [List.append_assoc, Nat.add_assoc]

theorem walkList_nil (path : Line) :
    walkList path [] = { out := [], tlines := 0, tfiles := 0, tdirs := 0 } := by
  rw [walkList]

theorem walkList_cons_blacklisted (path : Line) (d : DirTree) (h : d.dname ∈ blacklist)
    (ds : List DirTree) : walkList path (d :: ds) = walkList path ds := by
  rw [walkList]
  simp [h]

theorem walkList_append_blacklisted (path bname : Line) (h : bname ∈ blacklist)
    (sd : List DirTree) (fl : List FileE) (post : List DirTree) :
    ∀ pre : List DirTree,
      walkList path (pre ++ DirTree.node bname sd fl :: post)
        = walkList path (pre ++ post) := by
  intro pre
  induction pre with
  | nil =>
    rw [List.nil_append, List.nil_append]
    exact walkList_cons_blacklisted path (DirTree.node bname sd fl) h post
  | cons d pre ih =>
    rw [List.cons_append, List.cons_append, walkList, walkList, ih]

theorem walkDir_prune (path nm bname : Line) (h : bname ∈ blacklist)
    (sd pre post : List DirTree) (fl files : List FileE) :
    walkDir path (DirTree.node nm (pre ++ DirTree.node bname sd fl :: post) files)
      = walkDir path (DirTree.node nm (pre ++ post) files) := by
  rw [walkDir, walkDir, walkList_append_blacklisted path bname h sd fl post pre]
  have hfilter : (pre ++ DirTree.node bname sd fl :: post).filter
        (fun d => decide (d.dname ∉ blacklist))
      = (pre ++ post).filter (fun d => decide (d.dname ∉ blacklist)) := by
    rw [List.filter_append, List.filter_append, List.filter_cons]
    have : (decide ((DirTree.node bname sd fl).dname ∉ blacklist)) = false := by
      simp [DirTree.dname, h]
    rw [this]
    simp
  rw [hfilter]

mutual

theorem walkDir_tdirs (path : Line) (t : DirTree) :
    (walkDir path t).tdirs = ((visitedDirs t).map keptChildren).sum := by
  match t with
  | .node n sd f =>
    rw [walkDir, visitedDirs, List.map_cons, List.sum_cons]
    simp only [keptChildren]
    rw [walkList_tdirs path sd]

theorem walkList_tdirs (path : Line) (ds : List DirTree) :
    (walkList path ds).tdirs = ((visitedList ds).map keptChildren).sum := by
  match ds with
  | [] => rfl
  | d :: ds =>
    rw [walkList, visitedList, List.map_append, List.sum_append]
    by_cases h : d.dname ∈ blacklist
    · rw [if_pos h, if_pos h]
      simp [walkList_tdirs path ds]
    · rw [if_neg h, if_neg h]
      simp [walkList_tdirs path ds, walkDir_tdirs (joinPath path d.dname) d]

end

/-- The example tree of the spec: a root containing `a.cs` with three
newline-terminated lines and a blacklisted subdirectory `bin` containing
`b.cs`. -/
def exTree : DirTree :=
  DirTree.node ".".data
    [DirTree.node "bin".data [] [⟨"b.cs".data, Except.ok ("x".data ++ [nlC])⟩]]
    [⟨"a.cs".data, Except.ok ("one".data ++ nlC :: "two".data ++ nlC :: "three".data ++ [nlC])⟩]

/-- A chain of three nested directories, none blacklisted: the traversal
visits three directories but the directory total comes out as two. -/
def chainTree : DirTree :=
  DirTree.node ".".data [DirTree.node "a".data [DirTree.node "b".data [] []] []] []

/-! ### The claims -/

/-- C1: for every input, the Pattern-Extracting Deduplicator writes exactly
the header record `TypeOrNamespace<TAB>Count` followed by one record per
distinct extracted token, in the order of first extraction, each formatted as
the token, a tab, and the token's total number of occurrences among all
extracted tokens of the whole input. -/
theorem C1_output_table (lines : List Line) :
    remove_duplicates_with_count lines
      = headerL :: (dedupSpec (typesOf lines)).map
          (fun t => t ++ tabC :: fmtNat ((typesOf lines).count t)) := by
  rw [remove_duplicates_with_count, unique_types, buildUnique_eq_map,
    firstOccs_eq_dedupSpec, List.map_map]
  rfl

/-- C2: a line yields a token exactly when it contains the literal phrase
followed by one or more non-quote characters and a closing quote; the token
is exactly those captured characters, and a non-matching line (such as one
with an unterminated quote) contributes nothing to the token list. -/
theorem C2_extraction_iff (line : Line) :
    ((extract_type line).isSome ↔
      ∃ pre tk post : Line, line = pre ++ phrase ++ tk ++ quoteC :: post ∧
        tk ≠ [] ∧ ∀ c ∈ tk, c ≠ quoteC)
    ∧ (∀ tk, extract_type line = some tk →
        tk ≠ [] ∧ (∀ c ∈ tk, c ≠ quoteC) ∧
          ∃ pre post : Line, line = pre ++ phrase ++ tk ++ quoteC :: post)
    ∧ (extract_type line = none →
        ∀ pre suf : List Line, typesOf (pre ++ line :: suf) = typesOf (pre ++ suf)) := by
  refine ⟨⟨?_, ?_⟩, ?_, fun h pre suf => typesOf_cons_none line h pre suf⟩
  · intro h
    rcases Option.isSome_iff_exists.mp h with ⟨tk, htk⟩
    rw [extract_type, reSearch_eq_some_iff] at htk
    rcases htk with ⟨n, hn, _⟩
    rcases (tryPattern_eq_some_iff _ tk).mp hn with ⟨hne, hq, post, hpost⟩
    refine ⟨line.take n, tk, post, ?_, hne, hq⟩
    calc line = line.take n ++ line.drop n := (List.take_append_drop n line).symm
      _ = line.take n ++ (phrase ++ tk ++ quoteC :: post) := by rw [hpost]
      _ = line.take n ++ phrase ++ tk ++ quoteC :: post := by simp [List.append_assoc]
  · rintro ⟨pre, tk, post, hline, hne, hq⟩
    rw [extract_type]
    cases hre : reSearch line with
    | some tk2 => simp
    | none =>
      exfalso
      rw [reSearch_eq_none_iff] at hre
      have h1 := hre pre.length
      have hline2 : line = pre ++ (phrase ++ tk ++ quoteC :: post) := by
        rw [hline]
        simp [List.append_assoc]
      have hdrop : line.drop pre.length = phrase ++ tk ++ quoteC :: post := by
        rw [hline2, List.drop_left]
      rw [hdrop] at h1
      have h2 : tryPattern (phrase ++ tk ++ quoteC :: post) = some tk :=
        (tryPattern_eq_some_iff _ tk).mpr ⟨hne, hq, post, rfl⟩
      rw [h1] at h2
      exact absurd h2 (by simp)
  · intro tk htk
    rw [extract_type, reSearch_eq_some_iff] at htk
    rcases htk with ⟨n, hn, _⟩
    rcases (tryPattern_eq_some_iff _ tk).mp hn with ⟨hne, hq, post, hpost⟩
    refine ⟨hne, hq, line.take n, post, ?_⟩
    calc line = line.take n ++ line.drop n := (List.take_append_drop n line).symm
      _ = line.take n ++ (phrase ++ tk ++ quoteC :: post) := by rw [hpost]
      _ = line.take n ++ phrase ++ tk ++ quoteC :: post := by simp [List.append_assoc]

/-- An error line of the kind the deduplicator is meant for, used as a
concrete input below. -/
def sampleErr : Line := phrase ++ "Emit".data ++ quoteC :: " could not be found".data

/-- Witness for C2 at a concrete error line. -/
theorem C2_witness :
    ("Emit".data : Line) ≠ [] ∧ (∀ c ∈ ("Emit".data : Line), c ≠ quoteC) ∧
      ∃ pre post : Line, sampleErr = pre ++ phrase ++ "Emit".data ++ quoteC :: post :=
  (C2_extraction_iff sampleErr).2.1 "Emit".data (by decide)

/-- C3: a blacklisted subdirectory is pruned entirely: deleting it (with its
whole subtree) from its parent does not change the walk's output or totals in
any way; on the spec's example tree the output reports `./a.cs: 3 lines`,
totals 3 lines in 1 file, and never mentions `b.cs`. -/
theorem C3_blacklist_pruned (path nm bname : Line) (sd pre post : List DirTree)
    (fl files : List FileE) (h : bname ∈ blacklist) :
    walkDir path (DirTree.node nm (pre ++ DirTree.node bname sd fl :: post) files)
        = walkDir path (DirTree.node nm (pre ++ post) files)
    ∧ count_lines_in_cs_files exTree
        = ["./a.cs: 3 lines".data, [],
           "Total: 3 lines in 1 .cs files".data, "Directories scanned: 0".data]
    ∧ (∀ l ∈ count_lines_in_cs_files exTree, hasSub "b.cs".data l = false) :=
  ⟨walkDir_prune path nm bname h sd pre post fl files, by decide, by decide⟩

/-- Witness for C3 at a concrete blacklisted directory name. -/
theorem C3_witness :
    (walkDir ".".data (DirTree.node ".".data
          ([] ++ DirTree.node "bin".data [] [] :: []) [])
        = walkDir ".".data (DirTree.node ".".data ([] ++ []) []))
    ∧ count_lines_in_cs_files exTree
        = ["./a.cs: 3 lines".data, [],
           "Total: 3 lines in 1 .cs files".data, "Directories scanned: 0".data]
    ∧ (∀ l ∈ count_lines_in_cs_files exTree, hasSub "b.cs".data l = false) :=
  C3_blacklist_pruned ".".data ".".data "bin".data [] [] [] [] [] (by decide)

/-- C4: a `.cs` file whose read fails produces exactly the
`Error reading <path>: <message>` line, contributes nothing to the line and
file totals, and the traversal continues with the remaining files and
subdirectories unchanged. -/
theorem C4_error_line_and_continue (dir nm e : Line) (fe : FileE) (sd : List DirTree)
    (pre post : List FileE)
    (h1 : csExt.isSuffixOf fe.name = true) (h2 : fe.content = Except.error e) :
    processFiles dir (pre ++ fe :: post)
        = ((processFiles dir pre).1
             ++ errLine (joinPath dir fe.name) e :: (processFiles dir post).1,
           (processFiles dir (pre ++ post)).2)
    ∧ walkDir dir (DirTree.node nm sd (pre ++ fe :: post))
        = { out := (processFiles dir pre).1
              ++ errLine (joinPath dir fe.name) e :: (processFiles dir post).1
              ++ (walkList dir sd).out
            tlines := (walkDir dir (DirTree.node nm sd (pre ++ post))).tlines
            tfiles := (walkDir dir (DirTree.node nm sd (pre ++ post))).tfiles
            tdirs := (walkDir dir (DirTree.node nm sd (pre ++ post))).tdirs } := by
  have hfe : processFiles dir (fe :: post)
      = (errLine (joinPath dir fe.name) e :: (processFiles dir post).1,
         ((processFiles dir post).2.1, (processFiles dir post).2.2)) := by
    rw [processFiles, processFile_error dir e fe h1 h2]
    simp
  have happ := processFiles_append dir pre post
  have hmain : processFiles dir (pre ++ fe :: post)
      = ((processFiles dir pre).1
           ++ errLine (joinPath dir fe.name) e :: (processFiles dir post).1,
         ((processFiles dir pre).2.1 + (processFiles dir post).2.1,
          (processFiles dir pre).2.2 + (processFiles dir post).2.2)) := by
    rw [processFiles_append, hfe]
  constructor
  · rw [hmain, happ]
  · rw [walkDir, walkDir]
    rw [hmain]
    rw [happ]

/-- Witness for C4 at a concrete unreadable file. -/
theorem C4_witness :
    (processFiles ".".data
          ([] ++ (⟨"a.cs".data, Except.error "denied".data⟩ : FileE)
             :: [⟨"b.cs".data, Except.ok ("x".data ++ [nlC])⟩])
        = ((processFiles ".".data []).1
             ++ errLine (joinPath ".".data "a.cs".data) "denied".data
               :: (processFiles ".".data [⟨"b.cs".data, Except.ok ("x".data ++ [nlC])⟩]).1,
           (processFiles ".".data
              ([] ++ [⟨"b.cs".data, Except.ok ("x".data ++ [nlC])⟩])).2))
    ∧ walkDir ".".data (DirTree.node ".".data []
          ([] ++ (⟨"a.cs".data, Except.error "denied".data⟩ : FileE)
             :: [⟨"b.cs".data, Except.ok ("x".data ++ [nlC])⟩]))
        = { out := (processFiles ".".data []).1
              ++ errLine (joinPath ".".data "a.cs".data) "denied".data
                :: (processFiles ".".data [⟨"b.cs".data, Except.ok ("x".data ++ [nlC])⟩]).1
              ++ (walkList ".".data []).out
            tlines := (walkDir ".".data (DirTree.node ".".data []
                ([] ++ [⟨"b.cs".data, Except.ok ("x".data ++ [nlC])⟩]))).tlines
            tfiles := (walkDir ".".data (DirTree.node ".".data []
                ([] ++ [⟨"b.cs".data, Except.ok ("x".data ++ [nlC])⟩]))).tfiles
            tdirs := (walkDir ".".data (DirTree.node ".".data []
                ([] ++ [⟨"b.cs".data, Except.ok ("x".data ++ [nlC])⟩]))).tdirs } :=
  C4_error_line_and_continue ".".data ".".data "denied".data
    ⟨"a.cs".data, Except.error "denied".data⟩ [] []
    [⟨"b.cs".data, Except.ok ("x".data ++ [nlC])⟩] (by decide) rfl

/-- C5: invoked with an argument count other than two positional arguments
(so `sys.argv` has a length other than three), the script prints exactly the
usage message, reads no file and writes no file. -/
theorem C5_usage_on_wrong_argc (argv : List Line) (fs : Line → List Line)
    (h : argv.length ≠ 3) :
    duperemover_main argv fs
      = { stdout := [usageMsg], readsFrom := [], writes := [] } := by
  rw [duperemover_main, if_pos h]

/-- Witness for C5 with a single argument. -/
theorem C5_witness :
    (([[]] : List Line).length ≠ 3)
    ∧ duperemover_main [[]] (fun _ => [])
        = { stdout := [usageMsg], readsFrom := [], writes := [] } :=
  ⟨by decide, C5_usage_on_wrong_argc [[]] (fun _ => []) (by decide)⟩

/-- Counterexample for C6: a one-character file with no trailing newline is
reported as 1 line although it contains 0 line terminators, so the reported
count does not equal the number of line terminators. -/
theorem C6_counterexample :
    iterLineCount [('a' : Char)] = 1 ∧ List.count nlC [('a' : Char)] = 0
    ∧ processFile ".".data ⟨"a.cs".data, Except.ok [('a' : Char)]⟩
        = ([reportLine (joinPath ".".data "a.cs".data) 1], (1, 1)) := by
  decide

/-- C6 (amended): the reported per-file count equals the number of elements
the contents split into as lines; this equals the number of line terminators
exactly when the file is empty or ends with a newline. -/
theorem C6_per_file_count (dir content : Line) (fe : FileE)
    (h1 : csExt.isSuffixOf fe.name = true) (h2 : fe.content = Except.ok content) :
    processFile dir fe
        = ([reportLine (joinPath dir fe.name) (iterLineCount content)],
           (iterLineCount content, 1))
    ∧ iterLineCount content = (splitLinesPy content).length
    ∧ (iterLineCount content = content.count nlC
        ↔ (content = [] ∨ content.getLast? = some nlC)) :=
  ⟨processFile_ok dir content fe h1 h2, (length_splitLinesPy content).symm,
   iterLineCount_eq_count_iff content⟩

/-- Witness for C6 on a concrete newline-terminated file. -/
theorem C6_witness :
    processFile ".".data ⟨"a.cs".data, Except.ok ("x".data ++ [nlC])⟩
        = ([reportLine (joinPath ".".data "a.cs".data)
              (iterLineCount ("x".data ++ [nlC]))],
           (iterLineCount ("x".data ++ [nlC]), 1))
    ∧ iterLineCount ("x".data ++ [nlC]) = (splitLinesPy ("x".data ++ [nlC])).length
    ∧ (iterLineCount ("x".data ++ [nlC]) = List.count nlC ("x".data ++ [nlC])
        ↔ (("x".data ++ [nlC] : Line) = []
            ∨ ("x".data ++ [nlC] : Line).getLast? = some nlC)) :=
  C6_per_file_count ".".data ("x".data ++ [nlC])
    ⟨"a.cs".data, Except.ok ("x".data ++ [nlC])⟩ (by decide) rfl

/-- C7: the final directory total is the sum, over every directory the
traversal visits, of that directory's number of non-blacklisted immediate
subdirectories — not the number of visited directories, from which it differs
on a three-deep chain (total 2, visited 3). -/
theorem C7_dirs_total (path : Line) (t : DirTree) :
    (walkDir path t).tdirs = ((visitedDirs t).map keptChildren).sum
    ∧ (walkDir ".".data chainTree).tdirs = 2
    ∧ (visitedDirs chainTree).length = 3 :=
  ⟨walkDir_tdirs path t, by decide, by decide⟩

/-- C8: for the Generic Line Deduplicator, the sum of the emitted occurrence
counts equals the total number of input lines. -/
theorem C8_counts_sum_to_length (lines : List Line) :
    ((genericRows lines).map Prod.snd).sum = lines.length := by
  rw [genericRows, List.map_map]
  have hcomp : (Prod.snd ∘ fun l : Line => (l, lines.count l))
      = fun l : Line => lines.count l := rfl
  rw [hcomp]
  exact sum_count_distinct lines

/-- C9: the counts emitted by the Pattern-Extracting Deduplicator sum to the
number of input lines from which a token was extracted, and each distinct
token appears in exactly one row. -/
theorem C9_dedup_table_sound (lines : List Line) :
    (((unique_types lines).map Prod.snd).sum
        = (lines.filter (fun l => (extract_type l).isSome)).length)
    ∧ ((unique_types lines).map Prod.fst).Nodup
    ∧ (∀ t, t ∈ (unique_types lines).map Prod.fst ↔ t ∈ typesOf lines) := by
  have hu : unique_types lines
      = (firstOccs (typesOf lines) []).map
          (fun t => (t, (typesOf lines).count t)) :=
    buildUnique_eq_map _ _ []
  refine ⟨?_, ?_, ?_⟩
  · rw [hu, List.map_map]
    have hcomp : (Prod.snd ∘ fun t : Line => (t, (typesOf lines).count t))
        = fun t : Line => (typesOf lines).count t := rfl
    rw [hcomp, sum_count_distinct, typesOf_eq_filterMap, length_filterMap_extract]
  · rw [hu, List.map_map]
    have hcomp : (Prod.fst ∘ fun t : Line => (t, (typesOf lines).count t))
        = fun t : Line => t := rfl
    rw [hcomp]
    simpa using firstOccs_nodup (typesOf lines) []
  · intro t
    rw [hu, List.map_map]
    have hcomp : (Prod.fst ∘ fun t : Line => (t, (typesOf lines).count t))
        = fun t : Line => t := rfl
    rw [hcomp]
    simp [mem_firstOccs]

/-- C10: the extractor returns exactly the capture of the leftmost position
at which the pattern matches (every earlier position fails to match), so a
line with several occurrences contributes only the first token. -/
theorem C10_leftmost_match (cs tk : Line) :
    (extract_type cs = some tk
      ↔ ∃ n, tryPattern (cs.drop n) = some tk
          ∧ ∀ m, m < n → tryPattern (cs.drop m) = none)
    ∧ extract_type (phrase ++ "Foo".data ++ quoteC :: " and also ".data
          ++ phrase ++ "Bar".data ++ [quoteC]) = some "Foo".data :=
  ⟨reSearch_eq_some_iff cs tk, by decide⟩

/-- Witness for C10: the leftmost characterisation applied at a concrete
line whose match is at position 0. -/
theorem C10_witness :
    extract_type (phrase ++ "Foo".data ++ [quoteC]) = some "Foo".data :=
  ((C10_leftmost_match (phrase ++ "Foo".data ++ [quoteC]) "Foo".data).1).mpr
    ⟨0, by decide, fun m hm => absurd hm (Nat.not_lt_zero m)⟩

/-- Witness for C1 at a concrete input list. -/
theorem C1_witness :
    remove_duplicates_with_count [sampleErr]
      = headerL :: (dedupSpec (typesOf [sampleErr])).map
          (fun t => t ++ tabC :: fmtNat ((typesOf [sampleErr]).count t)) :=
  C1_output_table [sampleErr]

/-- Witness for C7 at the concrete chain tree. -/
theorem C7_witness :
    (walkDir ".".data chainTree).tdirs = ((visitedDirs chainTree).map keptChildren).sum
    ∧ (walkDir ".".data chainTree).tdirs = 2
    ∧ (visitedDirs chainTree).length = 3 :=
  C7_dirs_total ".".data chainTree

/-- Witness for C8 at a concrete two-line input. -/
theorem C8_witness :
    ((genericRows ["a".data, "a".data]).map Prod.snd).sum
      = (["a".data, "a".data] : List Line).length :=
  C8_counts_sum_to_length ["a".data, "a".data]

/-- Witness for C9 at a concrete one-line input. -/
theorem C9_witness :
    (((unique_types [sampleErr]).map Prod.snd).sum
        = ([sampleErr].filter (fun l => (extract_type l).isSome)).length)
    ∧ ((unique_types [sampleErr]).map Prod.fst).Nodup
    ∧ (∀ t, t ∈ (unique_types [sampleErr]).map Prod.fst ↔ t ∈ typesOf [sampleErr]) :=
  C9_dedup_table_sound [sampleErr]

end Uhigh
